import Mathlib

/-!
Shallow embedding of the indexing and Boolean-retrieval core of the
repository (src/indexer/indexer.py and src/retriever/retriever.py).

Python dictionaries (`Index.postings : Dict[str, List[int]]`) are modelled
as association lists `List (String × List Nat)` with first-match lookup,
document ids as `Nat`, and the fallible query evaluator (which can raise
`IndexError: pop from empty list` on a dangling operator) as a function
into `Except String`.
-/

namespace SearchCore

/-- Embeds `Document` (indexer.py, lines 14-20): id, title, url, text. -/
structure Document where
  id : Nat
  title : String
  url : String
  text : String
deriving Repr, DecidableEq, Inhabited

/-- Embeds `Result` (retriever.py, lines 9-17): url and snippet. -/
structure Result where
  url : String
  snippet : String
deriving Repr, DecidableEq

/-- The postings dictionary `Dict[str, List[int]]`, as an association list
with insertion order, first-match lookup. -/
abbrev Postings := List (String × List Nat)

/-- Embeds Python `d.get(t)` / `t in d` lookup on the postings dict:
first entry whose key equals `t`. -/
def dictGet (d : Postings) (t : String) : Option (List Nat) :=
  (d.find? (fun e => e.1 == t)).map (fun e => e.2)

/-- Embeds Python `d[t] = l` on the postings dict: overwrite the entry if the
key is present, otherwise append a new entry. -/
def dictSet (d : Postings) (t : String) (l : List Nat) : Postings :=
  if d.any (fun e => e.1 == t) then
    d.map (fun e => if e.1 == t then (t, l) else e)
  else d ++ [(t, l)]

/-- Embeds `Index` (indexer.py, lines 23-27): postings dict plus the
document table. -/
structure Index where
  postings : Postings
  documents : List Document

/-! ## Merge primitives (retriever.py, lines 101-169) -/

/-- Embeds `Retriever._and_` (retriever.py, lines 101-126): the classic
two-pointer sorted intersection.  The Python index pair `(i, j)` walking
`posting_a`/`posting_b` becomes structural recursion on the two lists; the
initial `if not posting_a or not posting_b: return []` is the two base
cases. -/
def andMerge (a b : List Nat) : List Nat :=
  match a, b with
  | [], _ => []
  | _ :: _, [] => []
  | x :: as2, y :: bs2 =>
    if x = y then x :: andMerge as2 bs2
    else if x < y then andMerge as2 (y :: bs2)
    else andMerge (x :: as2) bs2
termination_by a.length + b.length

/-- Embeds the `result.append(v)` guarded by
`if not result or result[-1] != v` in `Retriever._or_`: `last` is
`result[-1]` (`none` when `result` is empty), and the element is prepended
to the still-to-be-produced suffix of the output. -/
def consDedup (v : Nat) (last : Option Nat) (rest : List Nat) : List Nat :=
  if last = some v then rest else v :: rest

/-- Embeds the main `while` loop of `Retriever._or_` (retriever.py, lines
144-155).  One recursion step is one Python loop iteration: the first `if`
fires when `a` is nonempty and (`b` is exhausted or `a[i] <= b[j]`), and the
second `if` is then re-evaluated against the advanced `i` — hence the inner
match on the tail of `a`. -/
def orLoop (a b : List Nat) (last : Option Nat) : List Nat :=
  match a, b with
  | [], [] => []
  | x :: as2, [] => consDedup x last (orLoop as2 [] (some x))
  | [], y :: bs2 => consDedup y last (orLoop [] bs2 (some y))
  | x :: as2, y :: bs2 =>
    if x ≤ y then
      match as2 with
      | [] => consDedup x last (consDedup y (some x) (orLoop [] bs2 (some y)))
      | x2 :: as3 =>
        if y ≤ x2 then
          consDedup x last (consDedup y (some x) (orLoop (x2 :: as3) bs2 (some y)))
        else
          consDedup x last (orLoop (x2 :: as3) (y :: bs2) (some x))
    else consDedup y last (orLoop (x :: as2) bs2 (some y))
termination_by a.length + b.length

/-- Embeds `Retriever._or_` (retriever.py, lines 128-155): the two
short-circuit returns for an empty side, then the two-pointer union loop
starting from an empty `result` (`last = none`). -/
def orMerge (a b : List Nat) : List Nat :=
  match a, b with
  | [], _ => b
  | _ :: _, [] => a
  | _ :: _, _ :: _ => orLoop a b none

/-- Embeds `Retriever._not_` (retriever.py, lines 157-169):
`sorted(list(set(range(n)) - set(posting_a)))`, i.e. the unique ascending
duplicate-free enumeration of the set difference, which is `range n`
filtered by non-membership in `posting_a`. -/
def notMerge (n : Nat) (a : List Nat) : List Nat :=
  (List.range n).filter (fun x => decide (x ∉ a))

/-! ## Query evaluation (retriever.py, lines 26-66) -/

/-- Embeds `self.index.postings.get(term, [])`. -/
def getPostings (idx : Index) (t : String) : List Nat :=
  (dictGet idx.postings t).getD []

/-- Embeds the `while terms:` token loop of `Retriever.search_query`
(retriever.py, lines 38-58).  `acc` is `temp_postings` (`none` is Python
`None`).  A `terms.pop(0)` on an exhausted list raises
`IndexError: pop from empty list`, modelled as `Except.error`.  Note that
Python `_and_(None, b)` and `_or_(None, b)` take the `if not posting_a`
branch exactly as with an empty list, so `acc.getD []` is faithful there. -/
def evalQuery (idx : Index) : List String → Option (List Nat) → Except String (Option (List Nat))
  | [], acc => Except.ok acc
  | t :: rest, acc =>
    if t = "AND" then
      match rest with
      | [] => Except.error "pop from empty list"
      | nt :: rest2 =>
        evalQuery idx rest2 (some (andMerge (acc.getD []) (getPostings idx nt)))
    else if t = "OR" then
      match rest with
      | [] => Except.error "pop from empty list"
      | nt :: rest2 =>
        evalQuery idx rest2 (some (orMerge (acc.getD []) (getPostings idx nt)))
    else if t = "NOT" then
      match rest with
      | [] => Except.error "pop from empty list"
      | nt :: rest2 =>
        evalQuery idx rest2 (some (match acc with
          | none => notMerge idx.documents.length (getPostings idx nt)
          | some cur => andMerge cur (notMerge idx.documents.length (getPostings idx nt))))
    else
      evalQuery idx rest (some (match acc with
        | none => getPostings idx t
        | some cur => orMerge cur (getPostings idx t)))

/-- Placeholder document used to totalise the `documents[doc_id]` lookup of
the materialization loop; the safety claim shows it is never reached. -/
def defaultDocument : Document := { id := 0, title := "", url := "", text := "" }

/-- Embeds the Python character-slice `s[:n]`: the first `n` characters of
the string (all of it when it is shorter). -/
def strTake (s : String) (n : Nat) : String := String.mk (s.data.take n)

/-- Embeds one iteration of the result-materialization loop (retriever.py,
lines 61-63): `Result(url=document.url, snippet=document.text[:200])`. -/
def mkResult (d : Document) : Result :=
  { url := d.url, snippet := strTake d.text 200 }

/-- Embeds `Retriever.search_query` after tokenization: evaluate the token
list, return `[]` when `temp_postings is None`, otherwise materialize one
`Result` per accumulated document id, in list order. -/
def searchTokens (idx : Index) (toks : List String) : Except String (List Result) :=
  match evalQuery idx toks none with
  | Except.error e => Except.error e
  | Except.ok none => Except.ok []
  | Except.ok (some ids) =>
      Except.ok (ids.map (fun i => mkResult (idx.documents.getD i defaultDocument)))

/-- Embeds Python `str.split()` with no argument (used at retriever.py,
line 38): split on runs of whitespace, producing no empty tokens.  `cur`
holds the characters of the token in progress, in reverse. -/
def splitWsAux : List Char → List Char → List String
  | [], cur => if cur.isEmpty then [] else [String.mk cur.reverse]
  | c :: cs, cur =>
    if c.isWhitespace then
      (if cur.isEmpty then [] else [String.mk cur.reverse]) ++ splitWsAux cs []
    else splitWsAux cs (c :: cur)

/-- Embeds `query.split()` (retriever.py, line 38). -/
def pySplit (s : String) : List String := splitWsAux s.toList []

/-- Embeds `Retriever.search_query` (retriever.py, lines 26-66): whitespace
tokenization followed by the left-to-right fold and materialization.  The
`print` side effects are dropped. -/
def search_query (idx : Index) (q : String) : Except String (List Result) :=
  searchTokens idx (pySplit q)

/-! ## Index construction (indexer.py, lines 63-99)

The crawl, JSON loading and the text-normalization pipeline (BeautifulSoup
parsing, NLTK tokenization, stopword removal) are external collaborators;
the build loop is modelled on the data they hand to it: for each input
document, its url, its cleaned text and its final token list. -/

/-- One input document as seen by the postings-building part of
`Indexer.build_index`: `url`, the cleaned `text` stored on the `Document`,
and the token list produced by `tokenize` + `remove_stopwords`. -/
structure RawDoc where
  url : String
  text : String
  tokens : List String

/-- Embeds the per-token postings update of `Indexer.build_index`
(indexer.py, lines 94-98): initialise `postings[token]` to `[]` when the
key is absent, then append `doc_id` unless `doc_id in postings[token]`.
The two statements are fused: an absent key always receives `[docId]`. -/
def addToken (d : Postings) (docId : Nat) (tok : String) : Postings :=
  if docId ∈ (dictGet d tok).getD [] then d
  else dictSet d tok ((dictGet d tok).getD [] ++ [docId])

/-- Embeds one iteration of the document loop of `Indexer.build_index`
(indexer.py, lines 68-98): assign `doc_id = len(documents)`, append the
`Document` (title defaulting to the url), then fold the postings update
over the document's tokens. -/
def addDocument (idx : Index) (rd : RawDoc) : Index :=
  { documents := idx.documents ++
      [{ id := idx.documents.length, title := rd.url, url := rd.url, text := rd.text }],
    postings :=
      rd.tokens.foldl (fun d tok => addToken d idx.documents.length tok) idx.postings }

/-- Embeds `Index()` (indexer.py, lines 26-27): empty postings dict, empty
document list. -/
def emptyIndex : Index := { postings := [], documents := [] }

/-- Embeds `Indexer.build_index` (indexer.py, lines 63-99) over the
sequence of input documents, in order. -/
def build_index (docs : List RawDoc) : Index :=
  docs.foldl addDocument emptyIndex

/-! ## General lemmas about the merge primitives -/

/-- Two strictly ascending lists with the same members are equal. -/
theorem sorted_mem_ext {l1 l2 : List Nat} (h1 : l1.Sorted (· < ·))
    (h2 : l2.Sorted (· < ·)) (hm : ∀ x, x ∈ l1 ↔ x ∈ l2) : l1 = l2 := by
  haveI : IsAntisymm Nat (· < ·) := ⟨fun a b hab hba => absurd hab (Nat.lt_asymm hba)⟩
  exact List.eq_of_perm_of_sorted
    ((List.perm_ext_iff_of_nodup h1.nodup h2.nodup).mpr hm) h1 h2

theorem mem_consDedup {v x : Nat} {last : Option Nat} {rest : List Nat} :
    x ∈ consDedup v last rest ↔ (¬ last = some v ∧ x = v) ∨ x ∈ rest := by
  unfold consDedup
  split <;> simp_all

theorem sorted_consDedup {v : Nat} {last : Option Nat} {rest : List Nat}
    (hr : rest.Sorted (· < ·)) (hv : ∀ z ∈ rest, v < z) :
    (consDedup v last rest).Sorted (· < ·) := by
  unfold consDedup
  split
  · exact hr
  · exact List.sorted_cons.mpr ⟨hv, hr⟩

/-- Intersection outputs only elements present in both inputs, with no
assumption on the inputs. -/
theorem andMerge_subset : ∀ (a b : List Nat), ∀ x ∈ andMerge a b, x ∈ a ∧ x ∈ b := by
  intro a b
  induction a, b using andMerge.induct with
  | case1 b => simp [andMerge]
  | case2 x as2 => simp [andMerge]
  | case3 as2 y bs2 ih =>
    have heq : andMerge (y :: as2) (y :: bs2) = y :: andMerge as2 bs2 := by
      simp [andMerge]
    intro x hx
    rw [heq] at hx
    rcases List.mem_cons.mp hx with rfl | hx
    · simp
    · have := ih x hx
      simp [this.1, this.2]
  | case4 x as2 y bs2 hne hlt ih =>
    intro z hz
    simp only [andMerge, if_neg hne, if_pos hlt] at hz
    have := ih z hz
    simp at this
    simp [this.1, this.2]
  | case5 x as2 y bs2 hne hnlt ih =>
    intro z hz
    simp only [andMerge, if_neg hne, if_neg hnlt] at hz
    have := ih z hz
    simp at this
    simp [this.1, this.2]

/-- On strictly ascending inputs, `_and_` returns a strictly ascending list
whose members are exactly the common members of the inputs. -/
theorem andMerge_spec : ∀ (a b : List Nat), a.Sorted (· < ·) → b.Sorted (· < ·) →
    (andMerge a b).Sorted (· < ·) ∧ ∀ x, x ∈ andMerge a b ↔ (x ∈ a ∧ x ∈ b) := by
  intro a b
  induction a, b using andMerge.induct with
  | case1 b => intro _ _; simp [andMerge]
  | case2 x as2 => intro _ _; simp [andMerge]
  | case3 as2 y bs2 ih =>
    have heq : andMerge (y :: as2) (y :: bs2) = y :: andMerge as2 bs2 := by
      simp [andMerge]
    intro ha hb
    obtain ⟨hya, has⟩ := List.sorted_cons.mp ha
    obtain ⟨hyb, hbs⟩ := List.sorted_cons.mp hb
    obtain ⟨ihs, ihm⟩ := ih has hbs
    rw [heq]
    constructor
    · refine List.sorted_cons.mpr ⟨fun z hz => ?_, ihs⟩
      exact hya z ((ihm z).mp hz).1
    · intro z
      simp only [List.mem_cons, ihm z]
      constructor
      · rintro (rfl | ⟨h1, h2⟩)
        · exact ⟨Or.inl rfl, Or.inl rfl⟩
        · exact ⟨Or.inr h1, Or.inr h2⟩
      · rintro ⟨hz1, hz2⟩
        rcases hz1 with rfl | h1
        · exact Or.inl rfl
        · rcases hz2 with rfl | h2
          · exact absurd (hya z h1) (lt_irrefl z)
          · exact Or.inr ⟨h1, h2⟩
  | case4 x as2 y bs2 hne hlt ih =>
    intro ha hb
    obtain ⟨hxa, has⟩ := List.sorted_cons.mp ha
    obtain ⟨hyb, hbs⟩ := List.sorted_cons.mp hb
    obtain ⟨ihs, ihm⟩ := ih has hb
    simp only [andMerge, if_neg hne, if_pos hlt]
    refine ⟨ihs, fun z => ?_⟩
    rw [ihm z]
    constructor
    · rintro ⟨h1, h2⟩
      exact ⟨List.mem_cons_of_mem _ h1, h2⟩
    · rintro ⟨h1, h2⟩
      rcases List.mem_cons.mp h1 with rfl | h1
      · rcases List.mem_cons.mp h2 with rfl | h2
        · omega
        · have := hyb z h2; omega
      · exact ⟨h1, h2⟩
  | case5 x as2 y bs2 hne hnlt ih =>
    intro ha hb
    obtain ⟨hxa, has⟩ := List.sorted_cons.mp ha
    obtain ⟨hyb, hbs⟩ := List.sorted_cons.mp hb
    obtain ⟨ihs, ihm⟩ := ih ha hbs
    simp only [andMerge, if_neg hne, if_neg hnlt]
    refine ⟨ihs, fun z => ?_⟩
    rw [ihm z]
    constructor
    · rintro ⟨h1, h2⟩
      exact ⟨h1, List.mem_cons_of_mem _ h2⟩
    · rintro ⟨h1, h2⟩
      rcases List.mem_cons.mp h2 with rfl | h2
      · rcases List.mem_cons.mp h1 with rfl | h1
        · omega
        · have := hxa z h1; omega
      · exact ⟨h1, h2⟩

/-! ### Unfolding equations for the union loop -/

theorem orLoop_nil_nil (last : Option Nat) : orLoop [] [] last = [] := by
  simp [orLoop]

theorem orLoop_cons_nil (x : Nat) (as2 : List Nat) (last : Option Nat) :
    orLoop (x :: as2) [] last = consDedup x last (orLoop as2 [] (some x)) := by
  simp [orLoop]

theorem orLoop_nil_cons (y : Nat) (bs2 : List Nat) (last : Option Nat) :
    orLoop [] (y :: bs2) last = consDedup y last (orLoop [] bs2 (some y)) := by
  simp [orLoop]

theorem orLoop_one_cons (x y : Nat) (bs2 : List Nat) (last : Option Nat) (hxy : x ≤ y) :
    orLoop [x] (y :: bs2) last =
      consDedup x last (consDedup y (some x) (orLoop [] bs2 (some y))) := by
  simp [orLoop, hxy]

theorem orLoop_cons2_le (x x2 y : Nat) (as3 bs2 : List Nat) (last : Option Nat)
    (hxy : x ≤ y) (hyx2 : y ≤ x2) :
    orLoop (x :: x2 :: as3) (y :: bs2) last =
      consDedup x last (consDedup y (some x) (orLoop (x2 :: as3) bs2 (some y))) := by
  simp [orLoop, hxy, hyx2]

theorem orLoop_cons2_gt (x x2 y : Nat) (as3 bs2 : List Nat) (last : Option Nat)
    (hxy : x ≤ y) (hyx2 : ¬ y ≤ x2) :
    orLoop (x :: x2 :: as3) (y :: bs2) last =
      consDedup x last (orLoop (x2 :: as3) (y :: bs2) (some x)) := by
  simp [orLoop, hxy, hyx2]

theorem orLoop_cons_gt (x y : Nat) (as2 bs2 : List Nat) (last : Option Nat) (hxy : ¬ x ≤ y) :
    orLoop (x :: as2) (y :: bs2) last = consDedup y last (orLoop (x :: as2) bs2 (some y)) := by
  rw [orLoop.eq_def]
  simp only [if_neg hxy]

/-- The union loop outputs only elements of its inputs, with no assumption
on the inputs. -/
theorem orLoop_subset : ∀ (a b : List Nat) (last : Option Nat),
    ∀ x ∈ orLoop a b last, x ∈ a ∨ x ∈ b := by
  intro a b last
  induction a, b, last using orLoop.induct with
  | case1 last => simp [orLoop_nil_nil]
  | case2 last x as2 ih =>
    intro z hz
    rw [orLoop_cons_nil] at hz
    rcases mem_consDedup.mp hz with ⟨_, rfl⟩ | hz
    · simp
    · rcases ih z hz with h | h
      · exact Or.inl (List.mem_cons_of_mem _ h)
      · simp at h
  | case3 last y bs2 ih =>
    intro z hz
    rw [orLoop_nil_cons] at hz
    rcases mem_consDedup.mp hz with ⟨_, rfl⟩ | hz
    · simp
    · rcases ih z hz with h | h
      · simp at h
      · exact Or.inr (List.mem_cons_of_mem _ h)
  | case4 last x y bs2 hxy ih =>
    intro z hz
    rw [orLoop_one_cons x y bs2 last hxy] at hz
    rcases mem_consDedup.mp hz with ⟨_, rfl⟩ | hz
    · simp
    · rcases mem_consDedup.mp hz with ⟨_, rfl⟩ | hz
      · simp
      · rcases ih z hz with h | h
        · simp at h
        · exact Or.inr (List.mem_cons_of_mem _ h)
  | case5 last x y bs2 hxy x2 as3 hyx2 ih =>
    intro z hz
    rw [orLoop_cons2_le x x2 y as3 bs2 last hxy hyx2] at hz
    rcases mem_consDedup.mp hz with ⟨_, rfl⟩ | hz
    · simp
    · rcases mem_consDedup.mp hz with ⟨_, rfl⟩ | hz
      · simp
      · rcases ih z hz with h | h
        · exact Or.inl (List.mem_cons_of_mem _ h)
        · exact Or.inr (List.mem_cons_of_mem _ h)
  | case6 last x y bs2 hxy x2 as3 hyx2 ih =>
    intro z hz
    rw [orLoop_cons2_gt x x2 y as3 bs2 last hxy hyx2] at hz
    rcases mem_consDedup.mp hz with ⟨_, rfl⟩ | hz
    · simp
    · rcases ih z hz with h | h
      · exact Or.inl (List.mem_cons_of_mem _ h)
      · exact Or.inr h
  | case7 last x as2 y bs2 hxy ih =>
    intro z hz
    rw [orLoop_cons_gt x y as2 bs2 last hxy] at hz
    rcases mem_consDedup.mp hz with ⟨_, rfl⟩ | hz
    · simp
    · rcases ih z hz with h | h
      · exact Or.inl h
      · exact Or.inr (List.mem_cons_of_mem _ h)

/-- On strictly ascending inputs, and with every element of both inputs at
least the value last appended, the union loop returns a strictly ascending
list whose members are exactly the input members strictly above the last
appended value. -/
theorem orLoop_spec : ∀ (a b : List Nat) (last : Option Nat),
    a.Sorted (· < ·) → b.Sorted (· < ·) →
    (∀ m, last = some m → (∀ x ∈ a, m ≤ x) ∧ (∀ x ∈ b, m ≤ x)) →
    (orLoop a b last).Sorted (· < ·) ∧
      (∀ x, x ∈ orLoop a b last ↔ (x ∈ a ∨ x ∈ b) ∧ ∀ m, last = some m → m < x) := by
  intro a b last
  induction a, b, last using orLoop.induct with
  | case1 last =>
    intro _ _ _
    simp [orLoop_nil_nil]
  | case2 last x as2 ih =>
    intro ha _ hl
    obtain ⟨hxa, has⟩ := List.sorted_cons.mp ha
    obtain ⟨ihs, ihm⟩ := ih has (by simp)
      (by rintro m hm; injection hm with hm; subst hm
          exact ⟨fun z hz => le_of_lt (hxa z hz), by simp⟩)
    rw [orLoop_cons_nil]
    constructor
    · exact sorted_consDedup ihs (fun z hz => (((ihm z).mp hz).2) x rfl)
    · intro z
      rw [mem_consDedup, ihm z]
      constructor
      · rintro (⟨hne, rfl⟩ | ⟨hz, hlt⟩)
        · refine ⟨Or.inl (List.mem_cons_self _ _), fun m hm => ?_⟩
          have h1 := (hl m hm).1 z (List.mem_cons_self _ _)
          have h2 : ¬ m = z := fun h => hne (by rw [hm, h])
          omega
        · have hxz := hlt x rfl
          rcases hz with hz | hz
          · refine ⟨Or.inl (List.mem_cons_of_mem _ hz), fun m hm => ?_⟩
            have h1 := (hl m hm).1 x (List.mem_cons_self _ _)
            omega
          · simp at hz
      · rintro ⟨hz | hz, hlt⟩
        · rcases List.mem_cons.mp hz with rfl | hz
          · exact Or.inl ⟨fun h => absurd (hlt z h) (lt_irrefl z), rfl⟩
          · exact Or.inr ⟨Or.inl hz, fun m hm => by
              injection hm with hm; subst hm; exact hxa z hz⟩
        · simp at hz
  | case3 last y bs2 ih =>
    intro _ hb hl
    obtain ⟨hyb, hbs⟩ := List.sorted_cons.mp hb
    obtain ⟨ihs, ihm⟩ := ih (by simp) hbs
      (by rintro m hm; injection hm with hm; subst hm
          exact ⟨by simp, fun z hz => le_of_lt (hyb z hz)⟩)
    rw [orLoop_nil_cons]
    constructor
    · exact sorted_consDedup ihs (fun z hz => (((ihm z).mp hz).2) y rfl)
    · intro z
      rw [mem_consDedup, ihm z]
      constructor
      · rintro (⟨hne, rfl⟩ | ⟨hz, hlt⟩)
        · refine ⟨Or.inr (List.mem_cons_self _ _), fun m hm => ?_⟩
          have h1 := (hl m hm).2 z (List.mem_cons_self _ _)
          have h2 : ¬ m = z := fun h => hne (by rw [hm, h])
          omega
        · have hyz := hlt y rfl
          rcases hz with hz | hz
          · simp at hz
          · refine ⟨Or.inr (List.mem_cons_of_mem _ hz), fun m hm => ?_⟩
            have h1 := (hl m hm).2 y (List.mem_cons_self _ _)
            omega
      · rintro ⟨hz | hz, hlt⟩
        · simp at hz
        · rcases List.mem_cons.mp hz with rfl | hz
          · exact Or.inl ⟨fun h => absurd (hlt z h) (lt_irrefl z), rfl⟩
          · exact Or.inr ⟨Or.inr hz, fun m hm => by
              injection hm with hm; subst hm; exact hyb z hz⟩
  | case4 last x y bs2 hxy ih =>
    intro ha hb hl
    obtain ⟨hyb, hbs⟩ := List.sorted_cons.mp hb
    obtain ⟨ihs, ihm⟩ := ih (by simp) hbs
      (by rintro m hm; injection hm with hm; subst hm
          exact ⟨by simp, fun z hz => le_of_lt (hyb z hz)⟩)
    rw [orLoop_one_cons x y bs2 last hxy]
    have hinner_mem : ∀ z, z ∈ consDedup y (some x) (orLoop [] bs2 (some y)) ↔
        (¬ x = y ∧ z = y) ∨ (z ∈ bs2 ∧ y < z) := by
      intro z
      rw [mem_consDedup, ihm z]
      constructor
      · rintro (⟨hne, rfl⟩ | ⟨hz, hlt⟩)
        · exact Or.inl ⟨fun h => hne (by rw [h]), rfl⟩
        · rcases hz with hz | hz
          · simp at hz
          · exact Or.inr ⟨hz, hlt y rfl⟩
      · rintro (⟨hne, rfl⟩ | ⟨hz, hyz⟩)
        · exact Or.inl ⟨fun h => by injection h with h; exact hne h, rfl⟩
        · exact Or.inr ⟨Or.inr hz, fun m hm => by injection hm with hm; subst hm; exact hyz⟩
    have hinner_sorted :
        (consDedup y (some x) (orLoop [] bs2 (some y))).Sorted (· < ·) :=
      sorted_consDedup ihs (fun z hz => (((ihm z).mp hz).2) y rfl)
    constructor
    · apply sorted_consDedup hinner_sorted
      intro z hz
      rcases (hinner_mem z).mp hz with ⟨hne, rfl⟩ | ⟨_, hyz⟩ <;> omega
    · intro z
      rw [mem_consDedup, hinner_mem z]
      constructor
      · rintro (⟨hne, rfl⟩ | ⟨hne, rfl⟩ | ⟨hz, hyz⟩)
        · refine ⟨Or.inl (List.mem_cons_self _ _), fun m hm => ?_⟩
          have h1 := (hl m hm).1 z (List.mem_cons_self _ _)
          have h2 : ¬ m = z := fun h => hne (by rw [hm, h])
          omega
        · refine ⟨Or.inr (List.mem_cons_self _ _), fun m hm => ?_⟩
          have h1 := (hl m hm).1 x (List.mem_cons_self _ _)
          omega
        · refine ⟨Or.inr (List.mem_cons_of_mem _ hz), fun m hm => ?_⟩
          have h1 := (hl m hm).1 x (List.mem_cons_self _ _)
          omega
      · rintro ⟨hz | hz, hlt⟩
        · have hzx : z = x := by simpa using hz
          subst hzx
          exact Or.inl ⟨fun h => absurd (hlt z h) (lt_irrefl z), rfl⟩
        · rcases List.mem_cons.mp hz with hzy | hz
          · by_cases hxy2 : x = y
            · have hxz : x = z := hxy2.trans hzy.symm
              exact Or.inl ⟨fun h => absurd (hlt z (hxz ▸ h)) (lt_irrefl z), hxz.symm⟩
            · exact Or.inr (Or.inl ⟨hxy2, hzy⟩)
          · exact Or.inr (Or.inr ⟨hz, hyb z hz⟩)
  | case5 last x y bs2 hxy x2 as3 hyx2 ih =>
    intro ha hb hl
    obtain ⟨hxa, has⟩ := List.sorted_cons.mp ha
    obtain ⟨hyb, hbs⟩ := List.sorted_cons.mp hb
    obtain ⟨hx2a, has3⟩ := List.sorted_cons.mp has
    obtain ⟨ihs, ihm⟩ := ih has hbs
      (by rintro m hm; injection hm with hm; subst hm
          refine ⟨fun z hz => ?_, fun z hz => le_of_lt (hyb z hz)⟩
          rcases List.mem_cons.mp hz with rfl | hz
          · exact hyx2
          · exact le_of_lt (lt_of_le_of_lt hyx2 (hx2a z hz)))
    rw [orLoop_cons2_le x x2 y as3 bs2 last hxy hyx2]
    have hinner_mem : ∀ z, z ∈ consDedup y (some x) (orLoop (x2 :: as3) bs2 (some y)) ↔
        (¬ x = y ∧ z = y) ∨ ((z ∈ x2 :: as3 ∨ z ∈ bs2) ∧ y < z) := by
      intro z
      rw [mem_consDedup, ihm z]
      constructor
      · rintro (⟨hne, rfl⟩ | ⟨hz, hlt⟩)
        · exact Or.inl ⟨fun h => hne (by rw [h]), rfl⟩
        · exact Or.inr ⟨hz, hlt y rfl⟩
      · rintro (⟨hne, rfl⟩ | ⟨hz, hyz⟩)
        · exact Or.inl ⟨fun h => by injection h with h; exact hne h, rfl⟩
        · exact Or.inr ⟨hz, fun m hm => by injection hm with hm; subst hm; exact hyz⟩
    have hinner_sorted :
        (consDedup y (some x) (orLoop (x2 :: as3) bs2 (some y))).Sorted (· < ·) :=
      sorted_consDedup ihs (fun z hz => (((ihm z).mp hz).2) y rfl)
    constructor
    · apply sorted_consDedup hinner_sorted
      intro z hz
      rcases (hinner_mem z).mp hz with ⟨hne, rfl⟩ | ⟨_, hyz⟩ <;> omega
    · intro z
      rw [mem_consDedup, hinner_mem z]
      constructor
      · rintro (⟨hne, rfl⟩ | ⟨hne, rfl⟩ | ⟨hz, hyz⟩)
        · refine ⟨Or.inl (List.mem_cons_self _ _), fun m hm => ?_⟩
          have h1 := (hl m hm).1 z (List.mem_cons_self _ _)
          have h2 : ¬ m = z := fun h => hne (by rw [hm, h])
          omega
        · refine ⟨Or.inr (List.mem_cons_self _ _), fun m hm => ?_⟩
          have h1 := (hl m hm).1 x (List.mem_cons_self _ _)
          omega
        · rcases hz with hz | hz
          · refine ⟨Or.inl (List.mem_cons_of_mem _ hz), fun m hm => ?_⟩
            have h1 := (hl m hm).1 x (List.mem_cons_self _ _)
            omega
          · refine ⟨Or.inr (List.mem_cons_of_mem _ hz), fun m hm => ?_⟩
            have h1 := (hl m hm).1 x (List.mem_cons_self _ _)
            omega
      · rintro ⟨hz | hz, hlt⟩
        · rcases List.mem_cons.mp hz with rfl | hz
          · exact Or.inl ⟨fun h => absurd (hlt z h) (lt_irrefl z), rfl⟩
          · by_cases hyz : y < z
            · exact Or.inr (Or.inr ⟨Or.inl hz, hyz⟩)
            · have hx2z : x2 ≤ z := by
                rcases List.mem_cons.mp hz with rfl | hz2
                · exact le_refl _
                · exact le_of_lt (hx2a z hz2)
              have hzy : z = y := by omega
              subst hzy
              refine Or.inr (Or.inl ⟨?_, rfl⟩)
              have hxx2 := hxa x2 (List.mem_cons_self _ _)
              exact Nat.ne_of_lt (lt_of_lt_of_le hxx2 hx2z)
        · rcases List.mem_cons.mp hz with rfl | hz
          · by_cases hxy2 : x = z
            · exact Or.inl ⟨fun h => absurd (hlt z (hxy2 ▸ h)) (lt_irrefl z), hxy2.symm⟩
            · exact Or.inr (Or.inl ⟨hxy2, rfl⟩)
          · exact Or.inr (Or.inr ⟨Or.inr hz, hyb z hz⟩)
  | case6 last x y bs2 hxy x2 as3 hyx2 ih =>
    intro ha hb hl
    obtain ⟨hxa, has⟩ := List.sorted_cons.mp ha
    obtain ⟨hyb, hbs⟩ := List.sorted_cons.mp hb
    obtain ⟨ihs, ihm⟩ := ih has hb
      (by rintro m hm; injection hm with hm; subst hm
          refine ⟨fun z hz => le_of_lt (hxa z hz), fun z hz => ?_⟩
          rcases List.mem_cons.mp hz with rfl | hz
          · exact hxy
          · exact le_of_lt (lt_of_le_of_lt hxy (hyb z hz)))
    rw [orLoop_cons2_gt x x2 y as3 bs2 last hxy hyx2]
    constructor
    · exact sorted_consDedup ihs (fun z hz => (((ihm z).mp hz).2) x rfl)
    · intro z
      rw [mem_consDedup, ihm z]
      constructor
      · rintro (⟨hne, rfl⟩ | ⟨hz, hlt⟩)
        · refine ⟨Or.inl (List.mem_cons_self _ _), fun m hm => ?_⟩
          have h1 := (hl m hm).1 z (List.mem_cons_self _ _)
          have h2 : ¬ m = z := fun h => hne (by rw [hm, h])
          omega
        · have hxz := hlt x rfl
          rcases hz with hz | hz
          · refine ⟨Or.inl (List.mem_cons_of_mem _ hz), fun m hm => ?_⟩
            have h1 := (hl m hm).1 x (List.mem_cons_self _ _)
            omega
          · refine ⟨Or.inr hz, fun m hm => ?_⟩
            have h1 := (hl m hm).1 x (List.mem_cons_self _ _)
            omega
      · rintro ⟨hz | hz, hlt⟩
        · rcases List.mem_cons.mp hz with rfl | hz
          · exact Or.inl ⟨fun h => absurd (hlt z h) (lt_irrefl z), rfl⟩
          · exact Or.inr ⟨Or.inl hz, fun m hm => by
              injection hm with hm; subst hm; exact hxa z hz⟩
        · refine Or.inr ⟨Or.inr hz, fun m hm => ?_⟩
          injection hm with hm; subst hm
          have hxx2 := hxa x2 (List.mem_cons_self _ _)
          rcases List.mem_cons.mp hz with rfl | hz2
          · omega
          · have := hyb z hz2
            omega
  | case7 last x as2 y bs2 hxy ih =>
    intro ha hb hl
    obtain ⟨hxa, has⟩ := List.sorted_cons.mp ha
    obtain ⟨hyb, hbs⟩ := List.sorted_cons.mp hb
    obtain ⟨ihs, ihm⟩ := ih ha hbs
      (by rintro m hm; injection hm with hm; subst hm
          refine ⟨fun z hz => ?_, fun z hz => le_of_lt (hyb z hz)⟩
          rcases List.mem_cons.mp hz with rfl | hz
          · omega
          · have := hxa z hz
            omega)
    rw [orLoop_cons_gt x y as2 bs2 last hxy]
    constructor
    · exact sorted_consDedup ihs (fun z hz => (((ihm z).mp hz).2) y rfl)
    · intro z
      rw [mem_consDedup, ihm z]
      constructor
      · rintro (⟨hne, rfl⟩ | ⟨hz, hlt⟩)
        · refine ⟨Or.inr (List.mem_cons_self _ _), fun m hm => ?_⟩
          have h1 := (hl m hm).2 z (List.mem_cons_self _ _)
          have h2 : ¬ m = z := fun h => hne (by rw [hm, h])
          omega
        · have hyz := hlt y rfl
          rcases hz with hz | hz
          · refine ⟨Or.inl hz, fun m hm => ?_⟩
            have h1 := (hl m hm).2 y (List.mem_cons_self _ _)
            omega
          · refine ⟨Or.inr (List.mem_cons_of_mem _ hz), fun m hm => ?_⟩
            have h1 := (hl m hm).2 y (List.mem_cons_self _ _)
            omega
      · rintro ⟨hz | hz, hlt⟩
        · refine Or.inr ⟨Or.inl hz, fun m hm => ?_⟩
          injection hm with hm; subst hm
          rcases List.mem_cons.mp hz with rfl | hz2
          · omega
          · have := hxa z hz2
            omega
        · rcases List.mem_cons.mp hz with rfl | hz2
          · exact Or.inl ⟨fun h => absurd (hlt z h) (lt_irrefl z), rfl⟩
          · exact Or.inr ⟨Or.inr hz2, fun m hm => by
              injection hm with hm; subst hm; exact hyb z hz2⟩

/-- On strictly ascending inputs, `_or_` returns a strictly ascending list
whose members are exactly the members of either input. -/
theorem orMerge_spec (a b : List Nat) (ha : a.Sorted (· < ·)) (hb : b.Sorted (· < ·)) :
    (orMerge a b).Sorted (· < ·) ∧ ∀ x, x ∈ orMerge a b ↔ (x ∈ a ∨ x ∈ b) := by
  cases a with
  | nil =>
    refine ⟨hb, fun x => ?_⟩
    rw [show orMerge [] b = b from rfl]
    simp
  | cons x as2 =>
    cases b with
    | nil =>
      refine ⟨ha, fun z => ?_⟩
      rw [show orMerge (x :: as2) [] = x :: as2 from rfl]
      simp
    | cons y bs2 =>
      obtain ⟨hs, hm⟩ := orLoop_spec (x :: as2) (y :: bs2) none ha hb (by simp)
      refine ⟨hs, fun z => ?_⟩
      rw [show orMerge (x :: as2) (y :: bs2) = orLoop (x :: as2) (y :: bs2) none from rfl, hm z]
      simp

/-- Union outputs only elements present in an input, with no assumption on
the inputs. -/
theorem orMerge_subset (a b : List Nat) : ∀ x ∈ orMerge a b, x ∈ a ∨ x ∈ b := by
  cases a with
  | nil =>
    rw [show orMerge [] b = b from rfl]
    exact fun x hx => Or.inr hx
  | cons x as2 =>
    cases b with
    | nil =>
      rw [show orMerge (x :: as2) [] = x :: as2 from rfl]
      exact fun z hz => Or.inl hz
    | cons y bs2 =>
      exact orLoop_subset (x :: as2) (y :: bs2) none

theorem notMerge_sorted (n : Nat) (a : List Nat) : (notMerge n a).Sorted (· < ·) :=
  (List.sorted_lt_range n).filter _

theorem mem_notMerge {n x : Nat} {a : List Nat} :
    x ∈ notMerge n a ↔ x < n ∧ x ∉ a := by
  simp [notMerge, List.mem_filter, List.mem_range, and_comm]

/-! ## Lemmas about the postings dictionary and the builder -/

/-- A successful dict lookup returns an entry of the association list. -/
theorem dictGet_mem {d : Postings} {t : String} {l : List Nat}
    (h : dictGet d t = some l) : (t, l) ∈ d := by
  unfold dictGet at h
  cases hf : d.find? (fun e => e.1 == t) with
  | none => rw [hf] at h; simp at h
  | some e =>
    rw [hf] at h
    simp at h
    have hm := List.mem_of_find?_eq_some hf
    have hp := List.find?_some hf
    have h1 : e.1 = t := by simpa using hp
    have : e = (t, l) := by
      cases e
      simp_all
    rwa [this] at hm

/-- Every entry of the updated dict is an old entry or the freshly written
pair. -/
theorem dictSet_mem {d : Postings} {t : String} {l : List Nat} :
    ∀ e ∈ dictSet d t l, e ∈ d ∨ e = (t, l) := by
  intro e he
  unfold dictSet at he
  split at he
  · obtain ⟨e0, he0, heq⟩ := List.mem_map.mp he
    by_cases h0 : e0.1 = t
    · right
      rw [← heq]
      simp [h0]
    · left
      rw [← heq]
      simpa [h0] using he0
  · rcases List.mem_append.mp he with he | he
    · exact Or.inl he
    · right
      simpa using he

/-- The per-token update preserves any per-list property that holds of the
empty list and is preserved by appending a fresh `docId`. -/
theorem addToken_preserve (Q : List Nat → Prop) (d : Postings) (docId : Nat) (tok : String)
    (hd : ∀ e ∈ d, Q e.2) (hq0 : Q [])
    (hstep : ∀ cur, Q cur → docId ∉ cur → Q (cur ++ [docId])) :
    ∀ e ∈ addToken d docId tok, Q e.2 := by
  intro e he
  unfold addToken at he
  have hcur : Q ((dictGet d tok).getD []) := by
    cases hg : dictGet d tok with
    | none => simpa using hq0
    | some l =>
      have := hd (tok, l) (dictGet_mem hg)
      simpa [hg] using this
  split at he
  · exact hd e he
  · rcases dictSet_mem e he with he | he
    · exact hd e he
    · rw [he]
      exact hstep _ hcur (by assumption)

/-- Folding the per-token update over a token list preserves the property. -/
theorem foldl_addToken_preserve (Q : List Nat → Prop) (docId : Nat)
    (hq0 : Q []) (hstep : ∀ cur, Q cur → docId ∉ cur → Q (cur ++ [docId])) :
    ∀ (toks : List String) (d : Postings), (∀ e ∈ d, Q e.2) →
      ∀ e ∈ toks.foldl (fun d2 tok => addToken d2 docId tok) d, Q e.2 := by
  intro toks
  induction toks with
  | nil => intro d hd; simpa using hd
  | cons t ts ih =>
    intro d hd
    simp only [List.foldl_cons]
    exact ih (addToken d docId t) (addToken_preserve Q d docId t hd hq0 hstep)

/-- In a strictly ascending list bounded above by `d`, membership of `d` is
the same as `d` being the last element.  This is what makes the builder's
`doc_id not in postings[token]` test equivalent to a last-element check
during an in-order build pass. -/
theorem mem_iff_getLast {l : List Nat} {d : Nat} (hs : l.Sorted (· < ·))
    (hb : ∀ x ∈ l, x ≤ d) : d ∈ l ↔ l.getLast? = some d := by
  induction l with
  | nil => simp
  | cons a l ih =>
    obtain ⟨hal, hls⟩ := List.sorted_cons.mp hs
    cases l with
    | nil => simp [eq_comm]
    | cons b l2 =>
      rw [List.getLast?_cons_cons]
      have hb2 : ∀ x ∈ b :: l2, x ≤ d := fun x hx => hb x (List.mem_cons_of_mem _ hx)
      rw [← ih hls hb2]
      constructor
      · intro h
        rcases List.mem_cons.mp h with rfl | h
        · have h1 := hal b (List.mem_cons_self _ _)
          have h2 := hb2 b (List.mem_cons_self _ _)
          omega
        · exact h
      · intro h
        exact List.mem_cons_of_mem _ h

/-! ## Step equations for the query evaluator -/

theorem evalQuery_nil (idx : Index) (acc : Option (List Nat)) :
    evalQuery idx [] acc = Except.ok acc := rfl

theorem evalQuery_and_nil (idx : Index) (acc : Option (List Nat)) :
    evalQuery idx ["AND"] acc = Except.error "pop from empty list" := rfl

theorem evalQuery_or_nil (idx : Index) (acc : Option (List Nat)) :
    evalQuery idx ["OR"] acc = Except.error "pop from empty list" := rfl

theorem evalQuery_not_nil (idx : Index) (acc : Option (List Nat)) :
    evalQuery idx ["NOT"] acc = Except.error "pop from empty list" := rfl

theorem evalQuery_and_cons (idx : Index) (nt : String) (rest2 : List String)
    (acc : Option (List Nat)) :
    evalQuery idx ("AND" :: nt :: rest2) acc =
      evalQuery idx rest2 (some (andMerge (acc.getD []) (getPostings idx nt))) := rfl

theorem evalQuery_or_cons (idx : Index) (nt : String) (rest2 : List String)
    (acc : Option (List Nat)) :
    evalQuery idx ("OR" :: nt :: rest2) acc =
      evalQuery idx rest2 (some (orMerge (acc.getD []) (getPostings idx nt))) := rfl

theorem evalQuery_not_cons (idx : Index) (nt : String) (rest2 : List String)
    (acc : Option (List Nat)) :
    evalQuery idx ("NOT" :: nt :: rest2) acc =
      evalQuery idx rest2 (some (match acc with
        | none => notMerge idx.documents.length (getPostings idx nt)
        | some cur => andMerge cur (notMerge idx.documents.length (getPostings idx nt)))) := rfl

theorem evalQuery_term (idx : Index) (t : String) (rest : List String)
    (acc : Option (List Nat)) (h1 : t ≠ "AND") (h2 : t ≠ "OR") (h3 : t ≠ "NOT") :
    evalQuery idx (t :: rest) acc =
      evalQuery idx rest (some (match acc with
        | none => getPostings idx t
        | some cur => orMerge cur (getPostings idx t))) := by
  rw [evalQuery.eq_def]
  simp only [if_neg h1, if_neg h2, if_neg h3]

/-- Any per-list property holding of the index's postings lists and of the
empty list transfers to every `postings.get(t, [])` lookup. -/
theorem getPostings_preserve (idx : Index) (P : List Nat → Prop)
    (hinv : ∀ e ∈ idx.postings, P e.2) (hnil : P []) (t : String) :
    P (getPostings idx t) := by
  unfold getPostings
  cases hg : dictGet idx.postings t with
  | none => simpa using hnil
  | some l => simpa using hinv (t, l) (dictGet_mem hg)

/-- The evaluator's accumulator only ever holds lists built from postings
lookups by the three merge primitives, so any property preserved by those
operations holds of every accumulator value it produces. -/
theorem evalQuery_preserve (idx : Index) (P : List Nat → Prop)
    (hinv : ∀ e ∈ idx.postings, P e.2) (hnil : P [])
    (hand : ∀ a b, P a → P b → P (andMerge a b))
    (hor : ∀ a b, P a → P b → P (orMerge a b))
    (hnot : ∀ a, P (notMerge idx.documents.length a)) :
    ∀ (toks : List String) (acc r : Option (List Nat)),
      (∀ l, acc = some l → P l) → evalQuery idx toks acc = Except.ok r →
      ∀ l, r = some l → P l := by
  have hget : ∀ t, P (getPostings idx t) := getPostings_preserve idx P hinv hnil
  intro toks acc
  induction toks, acc using evalQuery.induct idx with
  | case1 acc =>
    intro r hacc heval l hl
    rw [evalQuery_nil] at heval
    injection heval with h
    exact hacc l (h.trans hl)
  | case2 acc =>
    intro r hacc heval l hl
    rw [evalQuery_and_nil] at heval
    simp at heval
  | case3 acc nt rest2 ih =>
    intro r hacc heval l hl
    rw [evalQuery_and_cons] at heval
    have haccP : P (acc.getD []) := by
      cases acc with
      | none => simpa using hnil
      | some a => simpa using hacc a rfl
    refine ih r ?_ heval l hl
    rintro l2 hl2
    injection hl2 with hl2
    subst hl2
    exact hand _ _ haccP (hget nt)
  | case4 acc h =>
    intro r hacc heval l hl
    rw [evalQuery_or_nil] at heval
    simp at heval
  | case5 acc nt rest2 h ih =>
    intro r hacc heval l hl
    rw [evalQuery_or_cons] at heval
    have haccP : P (acc.getD []) := by
      cases acc with
      | none => simpa using hnil
      | some a => simpa using hacc a rfl
    refine ih r ?_ heval l hl
    rintro l2 hl2
    injection hl2 with hl2
    subst hl2
    exact hor _ _ haccP (hget nt)
  | case6 acc h h2 =>
    intro r hacc heval l hl
    rw [evalQuery_not_nil] at heval
    simp at heval
  | case7 acc nt rest2 h h2 ih =>
    intro r hacc heval l hl
    rw [evalQuery_not_cons] at heval
    refine ih r ?_ heval l hl
    rintro l2 hl2
    injection hl2 with hl2
    subst hl2
    cases acc with
    | none => exact hnot _
    | some cur => exact hand _ _ (hacc cur rfl) (hnot _)
  | case8 t rest acc h1 h2 h3 ih =>
    intro r hacc heval l hl
    rw [evalQuery_term idx t rest acc h1 h2 h3] at heval
    refine ih r ?_ heval l hl
    rintro l2 hl2
    injection hl2 with hl2
    subst hl2
    cases acc with
    | none => exact hget t
    | some cur => exact hor _ _ (hacc cur rfl) (hget t)

/-! ## The builder's invariant -/

/-- One build step preserves the index invariant: postings lists strictly
ascending and in bounds, document ids dense. -/
theorem addDocument_inv (idx : Index) (rd : RawDoc)
    (h : (∀ e ∈ idx.postings, e.2.Sorted (· < ·) ∧ ∀ i ∈ e.2, i < idx.documents.length) ∧
         ∀ i (hi : i < idx.documents.length), (idx.documents.get ⟨i, hi⟩).id = i) :
    (∀ e ∈ (addDocument idx rd).postings, e.2.Sorted (· < ·) ∧
        ∀ i ∈ e.2, i < (addDocument idx rd).documents.length) ∧
    ∀ i (hi : i < (addDocument idx rd).documents.length),
        ((addDocument idx rd).documents.get ⟨i, hi⟩).id = i := by
  obtain ⟨hpost, hdocs⟩ := h
  have hdoclen : (addDocument idx rd).documents.length = idx.documents.length + 1 := by
    simp [addDocument]
  constructor
  · have hQ := foldl_addToken_preserve
      (fun l => l.Sorted (· < ·) ∧ ∀ i ∈ l, i ≤ idx.documents.length)
      idx.documents.length
      (by simp)
      (by rintro cur ⟨hs, hb⟩ hnot
          constructor
          · rw [List.Sorted, List.pairwise_append]
            refine ⟨hs, by simp, ?_⟩
            intro a ha b hb2
            have h1 := hb a ha
            have h2 : a ≠ idx.documents.length := fun hh => hnot (hh ▸ ha)
            have h3 : b = idx.documents.length := by simpa using hb2
            omega
          · intro i hi
            rcases List.mem_append.mp hi with hi | hi
            · exact hb i hi
            · have : i = idx.documents.length := by simpa using hi
              omega)
      rd.tokens idx.postings
      (fun e he => ⟨(hpost e he).1, fun i hi => le_of_lt ((hpost e he).2 i hi)⟩)
    intro e he
    have he2 : e ∈ rd.tokens.foldl
        (fun d2 tok => addToken d2 idx.documents.length tok) idx.postings := he
    obtain ⟨hs, hb⟩ := hQ e he2
    refine ⟨hs, fun i hi => ?_⟩
    rw [hdoclen]
    exact Nat.lt_succ_of_le (hb i hi)
  · intro i hi
    rw [List.get_eq_getElem]
    show ((idx.documents ++
      [{ id := idx.documents.length, title := rd.url, url := rd.url, text := rd.text }])[i]).id = i
    by_cases hlt : i < idx.documents.length
    · rw [List.getElem_append_left hlt]
      have := hdocs i hlt
      rwa [List.get_eq_getElem] at this
    · have hieq : i = idx.documents.length := by
        rw [hdoclen] at hi
        omega
      rw [List.getElem_concat_length _ _ _ hieq]
      exact hieq.symm

/-- The build fold preserves the index invariant from any invariant start. -/
theorem build_fold_inv : ∀ (docs : List RawDoc) (idx : Index),
    ((∀ e ∈ idx.postings, e.2.Sorted (· < ·) ∧ ∀ i ∈ e.2, i < idx.documents.length) ∧
     ∀ i (hi : i < idx.documents.length), (idx.documents.get ⟨i, hi⟩).id = i) →
    (∀ e ∈ (docs.foldl addDocument idx).postings, e.2.Sorted (· < ·) ∧
        ∀ i ∈ e.2, i < (docs.foldl addDocument idx).documents.length) ∧
    ∀ i (hi : i < (docs.foldl addDocument idx).documents.length),
        ((docs.foldl addDocument idx).documents.get ⟨i, hi⟩).id = i := by
  intro docs
  induction docs with
  | nil => intro idx h; simpa using h
  | cons rd rds ih =>
    intro idx h
    simp only [List.foldl_cons]
    exact ih (addDocument idx rd) (addDocument_inv idx rd h)

/-- A small concrete index (the two-document scenario of the spec) used by
the closed witnesses and counterexamples. -/
def demoIndex : Index :=
  { postings := [("grado", [0]), ("informatica", [0, 1]), ("master", [1])],
    documents :=
      [ { id := 0, title := "u0", url := "u0", text := "grado informatica" },
        { id := 1, title := "u1", url := "u1", text := "master informatica" } ] }

/-! ## Remaining small helpers -/

theorem andMerge_nil_left (b : List Nat) : andMerge [] b = [] := by
  simp [andMerge]

theorem andMerge_nil_right (a : List Nat) : andMerge a [] = [] := by
  cases a <;> simp [andMerge]

/-- The length of the Python slice `s[:n]` is `min n (len s)`. -/
theorem strTake_length (s : String) (n : Nat) : (strTake s n).length = min n s.length := by
  show (s.data.take n).length = min n s.data.length
  simp [List.length_take]

/-! ## Claims -/

/-- C1: for strictly ascending, duplicate-free integer lists `a` and `b`,
the merge primitives compute exact set operations: `_and_(a,b)` is sorted,
duplicate-free, equals the set intersection, and is empty when either input
is empty; `_or_(a,b)` equals the set union; `_not_(a)` equals the universe
`{0,...,n-1}` minus `a` (with `n` the document count), in ascending order. -/
theorem c1_merge_primitives_set_ops (a b : List Nat) (n : Nat)
    (ha : a.Sorted (· < ·)) (hb : b.Sorted (· < ·)) :
    ((andMerge a b).Sorted (· < ·) ∧ (andMerge a b).Nodup ∧
      (∀ x, x ∈ andMerge a b ↔ x ∈ a ∧ x ∈ b) ∧
      (a = [] ∨ b = [] → andMerge a b = [])) ∧
    ((orMerge a b).Sorted (· < ·) ∧ (orMerge a b).Nodup ∧
      (∀ x, x ∈ orMerge a b ↔ x ∈ a ∨ x ∈ b)) ∧
    ((notMerge n a).Sorted (· < ·) ∧ (notMerge n a).Nodup ∧
      (∀ x, x ∈ notMerge n a ↔ x < n ∧ x ∉ a)) := by
  obtain ⟨hs1, hm1⟩ := andMerge_spec a b ha hb
  obtain ⟨hs2, hm2⟩ := orMerge_spec a b ha hb
  refine ⟨⟨hs1, hs1.nodup, hm1, ?_⟩, ⟨hs2, hs2.nodup, hm2⟩,
    notMerge_sorted n a, (notMerge_sorted n a).nodup, fun x => mem_notMerge⟩
  rintro (rfl | rfl)
  · exact andMerge_nil_left b
  · exact andMerge_nil_right a

/-- Witness for C1 at `a = [1,3]`, `b = [2,3]`, `n = 5`. -/
theorem c1_witness :
    ([1, 3] : List Nat).Sorted (· < ·) ∧ ([2, 3] : List Nat).Sorted (· < ·) ∧
    (andMerge [1, 3] [2, 3]).Sorted (· < ·) ∧
    (∀ x, x ∈ orMerge [1, 3] [2, 3] ↔ x ∈ ([1, 3] : List Nat) ∨ x ∈ ([2, 3] : List Nat)) :=
  ⟨by decide, by decide,
   (c1_merge_primitives_set_ops [1, 3] [2, 3] 5 (by decide) (by decide)).1.1,
   (c1_merge_primitives_set_ops [1, 3] [2, 3] 5 (by decide) (by decide)).2.1.2.2⟩

/-- C2: `search_query` evaluates the whitespace-split query as a strict
left-to-right fold over an accumulator starting unset: a bare term sets the
accumulator if unset and otherwise ORs its postings in; `AND t` / `OR t`
consume one following term and intersect/union its postings with the
accumulator; `NOT t` complements `t`'s postings and either sets the unset
accumulator to the complement or intersects the accumulator with it; an
empty query, or an evaluation that never sets the accumulator, returns the
empty result sequence. -/
theorem c2_left_fold_eval (idx : Index) (t nt : String) (rest : List String)
    (a : List Nat) (toks : List String)
    (h1 : t ≠ "AND") (h2 : t ≠ "OR") (h3 : t ≠ "NOT") :
    (evalQuery idx (t :: rest) none = evalQuery idx rest (some (getPostings idx t))) ∧
    (evalQuery idx (t :: rest) (some a) =
      evalQuery idx rest (some (orMerge a (getPostings idx t)))) ∧
    (evalQuery idx ("AND" :: nt :: rest) (some a) =
      evalQuery idx rest (some (andMerge a (getPostings idx nt)))) ∧
    (evalQuery idx ("OR" :: nt :: rest) (some a) =
      evalQuery idx rest (some (orMerge a (getPostings idx nt)))) ∧
    (evalQuery idx ("NOT" :: nt :: rest) none =
      evalQuery idx rest (some (notMerge idx.documents.length (getPostings idx nt)))) ∧
    (evalQuery idx ("NOT" :: nt :: rest) (some a) =
      evalQuery idx rest
        (some (andMerge a (notMerge idx.documents.length (getPostings idx nt))))) ∧
    (search_query idx "" = Except.ok []) ∧
    (evalQuery idx toks none = Except.ok none → searchTokens idx toks = Except.ok []) := by
  refine ⟨?_, ?_, ?_, ?_, ?_, ?_, ?_, ?_⟩
  · rw [evalQuery_term idx t rest none h1 h2 h3]
  · rw [evalQuery_term idx t rest (some a) h1 h2 h3]
  · exact evalQuery_and_cons idx nt rest (some a)
  · exact evalQuery_or_cons idx nt rest (some a)
  · exact evalQuery_not_cons idx nt rest none
  · exact evalQuery_not_cons idx nt rest (some a)
  · rfl
  · intro h
    unfold searchTokens
    rw [h]

/-- Witness for C2 at the bare term "grado" against the demo index. -/
theorem c2_witness :
    ("grado" ≠ "AND" ∧ "grado" ≠ "OR" ∧ "grado" ≠ "NOT") ∧
    evalQuery demoIndex ["grado"] none =
      evalQuery demoIndex [] (some (getPostings demoIndex "grado")) :=
  ⟨⟨by decide, by decide, by decide⟩,
   (c2_left_fold_eval demoIndex "grado" "master" [] [0] ["grado"]
     (by decide) (by decide) (by decide)).1⟩

/-- C3 counterexample: the query "AND AND" ends in an operator token, yet
`search_query` raises no error and returns the (empty) result list, because
the trailing "AND" is consumed as the operand of the first "AND". -/
theorem c3_counterexample : search_query demoIndex "AND AND" = Except.ok [] := by
  simp [search_query, searchTokens, pySplit, splitWsAux, evalQuery, andMerge,
    getPostings, dictGet, demoIndex]

/-- C3 (amended): when the trailing operator is actually reached as an
operator — in particular whenever no earlier token is an operator, so
nothing consumes it as an operand — evaluation raises the uncaught
`IndexError: pop from empty list` and no result list is produced. -/
theorem c3_dangling_operator_error (idx : Index) (ts : List String) (op : String)
    (hop : op = "AND" ∨ op = "OR" ∨ op = "NOT")
    (hts : ∀ t ∈ ts, t ≠ "AND" ∧ t ≠ "OR" ∧ t ≠ "NOT") :
    searchTokens idx (ts ++ [op]) = Except.error "pop from empty list" ∧
    ∀ rs, searchTokens idx (ts ++ [op]) ≠ Except.ok rs := by
  have hbase : ∀ acc, evalQuery idx [op] acc = Except.error "pop from empty list" := by
    intro acc
    rcases hop with rfl | rfl | rfl
    · exact evalQuery_and_nil idx acc
    · exact evalQuery_or_nil idx acc
    · exact evalQuery_not_nil idx acc
  have hmain : ∀ (us : List String), (∀ t ∈ us, t ≠ "AND" ∧ t ≠ "OR" ∧ t ≠ "NOT") →
      ∀ acc, evalQuery idx (us ++ [op]) acc = Except.error "pop from empty list" := by
    intro us
    induction us with
    | nil => intro _ acc; simpa using hbase acc
    | cons t ts2 ih =>
      intro hus acc
      obtain ⟨h1, h2, h3⟩ := hus t (List.mem_cons_self _ _)
      rw [List.cons_append, evalQuery_term idx t (ts2 ++ [op]) acc h1 h2 h3]
      exact ih (fun t2 ht2 => hus t2 (List.mem_cons_of_mem _ ht2)) _
  have herr : searchTokens idx (ts ++ [op]) = Except.error "pop from empty list" := by
    unfold searchTokens
    rw [hmain ts hts none]
  exact ⟨herr, fun rs h => by rw [herr] at h; exact Except.noConfusion h⟩

/-- Witness for the amended C3 at the spec scenario "grado AND". -/
theorem c3_witness :
    (∀ t ∈ (["grado"] : List String), t ≠ "AND" ∧ t ≠ "OR" ∧ t ≠ "NOT") ∧
    searchTokens demoIndex (["grado"] ++ ["AND"]) = Except.error "pop from empty list" :=
  ⟨by decide,
   (c3_dangling_operator_error demoIndex ["grado"] "AND" (Or.inl rfl) (by decide)).1⟩

/-- C4: after building from any ordered sequence of input documents, every
postings list is strictly ascending with no duplicate id, every posted id
is a valid index into `documents`, and `documents[i].id = i` for all i. -/
theorem c4_build_invariants (docs : List RawDoc) :
    (∀ e ∈ (build_index docs).postings, e.2.Sorted (· < ·) ∧ e.2.Nodup ∧
        ∀ i ∈ e.2, i < (build_index docs).documents.length) ∧
    ∀ i (hi : i < (build_index docs).documents.length),
        ((build_index docs).documents.get ⟨i, hi⟩).id = i := by
  have h := build_fold_inv docs emptyIndex
    ⟨by intro e he; simp [emptyIndex] at he, by intro i hi; simp [emptyIndex] at hi⟩
  exact ⟨fun e he => ⟨(h.1 e he).1, (h.1 e he).1.nodup, (h.1 e he).2⟩, h.2⟩

/-- C5: during an in-order build pass — the current postings list ascending
and bounded by the current document id — the per-token update appends the
id to `postings[token]` exactly when it is not already the list's last
element; the code's membership test admits the append precisely then. -/
theorem c5_append_iff_not_last (d : Postings) (docId : Nat) (tok : String)
    (hs : ((dictGet d tok).getD []).Sorted (· < ·))
    (hb : ∀ x ∈ (dictGet d tok).getD [], x ≤ docId) :
    addToken d docId tok =
      if ((dictGet d tok).getD []).getLast? = some docId then d
      else dictSet d tok ((dictGet d tok).getD [] ++ [docId]) := by
  unfold addToken
  by_cases hmem : docId ∈ (dictGet d tok).getD []
  · rw [if_pos hmem, if_pos ((mem_iff_getLast hs hb).mp hmem)]
  · rw [if_neg hmem, if_neg (fun h => hmem ((mem_iff_getLast hs hb).mpr h))]

/-- Witness for C5: a token whose list [0, 2] does not end in 3 receives
the append. -/
theorem c5_witness :
    ((dictGet [("a", [0, 2])] "a").getD []).Sorted (· < ·) ∧
    addToken [("a", [0, 2])] 3 "a" =
      (if ((dictGet [("a", [0, 2])] "a").getD []).getLast? = some 3 then [("a", [0, 2])]
       else dictSet [("a", [0, 2])] "a" ((dictGet [("a", [0, 2])] "a").getD [] ++ [3])) :=
  ⟨by decide, c5_append_iff_not_last [("a", [0, 2])] 3 "a" (by decide) (by decide)⟩

/-- C6: a term with no postings entry is looked up as the empty posting
list rather than raising, and the single-unknown-term query "nosuchterm"
returns an empty result sequence without signalling an error. -/
theorem c6_unknown_term_empty (idx : Index) (t : String)
    (ht : dictGet idx.postings t = none)
    (hn : dictGet idx.postings "nosuchterm" = none) :
    getPostings idx t = [] ∧
    search_query idx "nosuchterm" = Except.ok [] := by
  have hgp : ∀ u, dictGet idx.postings u = none → getPostings idx u = [] := by
    intro u hu
    unfold getPostings
    rw [hu]
    rfl
  refine ⟨hgp t ht, ?_⟩
  have hsplit : pySplit "nosuchterm" = ["nosuchterm"] := by decide
  unfold search_query
  rw [hsplit]
  have heval : evalQuery idx ["nosuchterm"] none =
      Except.ok (some (getPostings idx "nosuchterm")) := by
    rw [evalQuery_term idx "nosuchterm" [] none (by decide) (by decide) (by decide)]
    rfl
  unfold searchTokens
  rw [heval, hgp "nosuchterm" hn]
  rfl

/-- Witness for C6 against the demo index, where "nosuchterm" is absent. -/
theorem c6_witness :
    dictGet demoIndex.postings "nosuchterm" = none ∧
    search_query demoIndex "nosuchterm" = Except.ok [] :=
  ⟨by decide,
   (c6_unknown_term_empty demoIndex "nosuchterm" (by decide) (by decide)).2⟩

/-- C7: for an evaluated query whose final accumulated posting list is
non-empty, the result sequence is one `Result` per accumulated id, in
ascending id order, with url `documents[id].url` and snippet the first 200
characters of `documents[id].text`; text longer than 200 characters yields
a snippet of exactly 200 characters. -/
theorem c7_materialization (idx : Index) (toks : List String) (ids : List Nat)
    (hinv : ∀ e ∈ idx.postings, e.2.Sorted (· < ·))
    (heval : evalQuery idx toks none = Except.ok (some ids)) (_hne : ids ≠ []) :
    searchTokens idx toks = Except.ok (ids.map (fun i =>
      { url := (idx.documents.getD i defaultDocument).url,
        snippet := strTake (idx.documents.getD i defaultDocument).text 200 })) ∧
    ids.Sorted (· < ·) ∧
    ∀ i ∈ ids, 200 < (idx.documents.getD i defaultDocument).text.length →
      (strTake (idx.documents.getD i defaultDocument).text 200).length = 200 := by
  refine ⟨?_, ?_, ?_⟩
  · unfold searchTokens
    rw [heval]
    rfl
  · exact evalQuery_preserve idx (fun l => l.Sorted (· < ·)) hinv (by simp)
      (fun a b pa pb => (andMerge_spec a b pa pb).1)
      (fun a b pa pb => (orMerge_spec a b pa pb).1)
      (fun a => notMerge_sorted _ a)
      toks none (some ids) (fun l h => Option.noConfusion h) heval ids rfl
  · intro i _ hlen
    rw [strTake_length]
    omega

/-- Witness for C7 at the query ["grado"] against the demo index. -/
theorem c7_witness :
    (∀ e ∈ demoIndex.postings, e.2.Sorted (· < ·)) ∧
    searchTokens demoIndex ["grado"] = Except.ok ([0].map (fun i =>
      { url := (demoIndex.documents.getD i defaultDocument).url,
        snippet := strTake (demoIndex.documents.getD i defaultDocument).text 200 })) :=
  ⟨by decide,
   (c7_materialization demoIndex ["grado"] [0] (by decide) rfl (by decide)).1⟩

/-- C8: on a strictly ascending duplicate-free list whose elements lie in
the universe `{0,...,n-1}`: `_or_(a,a) = a`, `_and_(a,a) = a` and
`_not_(_not_(a)) = a`. -/
theorem c8_idempotence (a : List Nat) (n : Nat) (ha : a.Sorted (· < ·))
    (hb : ∀ x ∈ a, x < n) :
    orMerge a a = a ∧ andMerge a a = a ∧ notMerge n (notMerge n a) = a := by
  obtain ⟨hs1, hm1⟩ := andMerge_spec a a ha ha
  obtain ⟨hs2, hm2⟩ := orMerge_spec a a ha ha
  refine ⟨sorted_mem_ext hs2 ha ?_, sorted_mem_ext hs1 ha ?_,
    sorted_mem_ext (notMerge_sorted n _) ha ?_⟩
  · intro x
    rw [hm2 x]
    tauto
  · intro x
    rw [hm1 x]
    tauto
  · intro x
    rw [mem_notMerge]
    constructor
    · rintro ⟨hxn, hnot⟩
      by_contra hxa
      exact hnot (mem_notMerge.mpr ⟨hxn, hxa⟩)
    · intro hxa
      exact ⟨hb x hxa, fun hmem => (mem_notMerge.mp hmem).2 hxa⟩

/-- Witness for C8 at `a = [0,2]`, `n = 3`. -/
theorem c8_witness :
    ([0, 2] : List Nat).Sorted (· < ·) ∧ (∀ x ∈ ([0, 2] : List Nat), x < 3) ∧
    orMerge [0, 2] [0, 2] = [0, 2] :=
  ⟨by decide, by decide, (c8_idempotence [0, 2] 3 (by decide) (by decide)).1⟩

/-- C9: if every id in every postings list is below the document count,
then `_and_` and `_or_` only output ids present in an input list, `_not_`
only outputs ids below the document count, and every id in the final
accumulator of an error-free evaluation is a valid index into
`documents` — so the materialization lookup is always in bounds. -/
theorem c9_result_ids_in_bounds (idx : Index) (toks : List String) (ids : List Nat)
    (hbound : ∀ e ∈ idx.postings, ∀ i ∈ e.2, i < idx.documents.length)
    (heval : evalQuery idx toks none = Except.ok (some ids)) :
    (∀ a b : List Nat, ∀ x ∈ andMerge a b, x ∈ a ∧ x ∈ b) ∧
    (∀ a b : List Nat, ∀ x ∈ orMerge a b, x ∈ a ∨ x ∈ b) ∧
    (∀ a : List Nat, ∀ x ∈ notMerge idx.documents.length a, x < idx.documents.length) ∧
    ∀ i ∈ ids, i < idx.documents.length := by
  refine ⟨andMerge_subset, orMerge_subset, fun a x hx => (mem_notMerge.mp hx).1, ?_⟩
  exact evalQuery_preserve idx (fun l => ∀ i ∈ l, i < idx.documents.length)
    hbound (by simp)
    (fun a b pa pb i hi => pa i (andMerge_subset a b i hi).1)
    (fun a b pa pb i hi => (orMerge_subset a b i hi).elim (pa i) (pb i))
    (fun a i hi => (mem_notMerge.mp hi).1)
    toks none (some ids) (fun l h => Option.noConfusion h) heval ids rfl

/-- Witness for C9 at the query ["grado"] against the demo index. -/
theorem c9_witness :
    (∀ e ∈ demoIndex.postings, ∀ i ∈ e.2, i < demoIndex.documents.length) ∧
    ∀ i ∈ ([0] : List Nat), i < demoIndex.documents.length :=
  ⟨by decide, (c9_result_ids_in_bounds demoIndex ["grado"] [0] (by decide) rfl).2.2.2⟩

/-- C10: a query starting with an operator followed by an operand does not
raise: a leading `AND t` intersects with the unset accumulator as the empty
list (so `AND t` alone returns no results), and a leading `OR t` behaves
exactly like the bare term `t`. -/
theorem c10_leading_operator (idx : Index) (t : String) (rest : List String)
    (h1 : t ≠ "AND") (h2 : t ≠ "OR") (h3 : t ≠ "NOT") :
    evalQuery idx ("AND" :: t :: rest) none = evalQuery idx rest (some []) ∧
    searchTokens idx ["AND", t] = Except.ok [] ∧
    evalQuery idx ("OR" :: t :: rest) none = evalQuery idx (t :: rest) none := by
  refine ⟨?_, ?_, ?_⟩
  · rw [evalQuery_and_cons idx t rest none,
      show (none : Option (List Nat)).getD [] = [] from rfl, andMerge_nil_left]
  · simp [searchTokens, evalQuery_and_cons, evalQuery_nil, andMerge_nil_left]
  · rw [evalQuery_or_cons idx t rest none, evalQuery_term idx t rest none h1 h2 h3]
    rfl

/-- Witness for C10 at the operand "grado" against the demo index. -/
theorem c10_witness :
    ("grado" ≠ "AND" ∧ "grado" ≠ "OR" ∧ "grado" ≠ "NOT") ∧
    searchTokens demoIndex ["AND", "grado"] = Except.ok [] :=
  ⟨⟨by decide, by decide, by decide⟩,
   (c10_leading_operator demoIndex "grado" [] (by decide) (by decide) (by decide)).2.1⟩

end SearchCore
